import Mathlib

/-!
Shallow embedding of the background job queue and usage-metering core of the
repository (migration file defining `job_queue`, `daily_usage_metrics` and the
PL/pgSQL functions `enqueue_job`, `get_next_job`, `complete_job`,
`cleanup_old_jobs`, `increment_usage_metric`).

Modelling conventions:
- Timestamps are `Int`, measured in minutes (the backoff interval unit of the
  source; one day = 1440 minutes for `cleanup_old_jobs`).
- A table is a `List` of rows; the SQL `WHERE id = ...` update is a `map` over
  rows guarded by the id.  Primary-key freshness is a hypothesis where needed.
- In a SQL `UPDATE`, every `SET` right-hand side reads the OLD row values; the
  embedding of `complete_job` therefore computes every new field from the old
  row, exactly as PostgreSQL does.
- `jsonb` payloads and audit columns (`created_at`, `updated_at`) are opaque to
  every claim and the payload is kept as a `String`; `updated_at`/`created_at`
  are omitted since no modelled operation reads them.
- SQL `integer` columns are embedded as `Int` (signed, overflow ignored);
  `retry_count`/`max_retries` as `Nat` (the schema defaults them to 0/3 and the
  only writer increments).
-/

namespace BMCore

inductive JobStatus
  | pending
  | processing
  | completed
  | failed
deriving DecidableEq

structure Job where
  id : Nat
  job_type : String
  payload : String
  status : JobStatus
  priority : Int
  scheduled_at : Int
  started_at : Option Int
  completed_at : Option Int
  error_message : Option String
  retry_count : Nat
  max_retries : Nat
deriving DecidableEq

/-- `enqueue_job`: INSERT a fresh row in status `pending` with the schema
defaults `retry_count = 0`, `max_retries = 3`, null timestamps. -/
def enqueue_job (st : List Job) (newId : Nat) (jt pl : String) (prio sched : Int) :
    List Job :=
  st ++ [{ id := newId, job_type := jt, payload := pl, status := .pending,
           priority := prio, scheduled_at := sched, started_at := none,
           completed_at := none, error_message := none,
           retry_count := 0, max_retries := 3 }]

/-- The `WHERE` clause of `get_next_job`: `status = 'pending' AND scheduled_at <= now()`. -/
def eligibleJob (now : Int) (j : Job) : Bool :=
  j.status == .pending && decide (j.scheduled_at ≤ now)

/-- `ORDER BY priority DESC, scheduled_at ASC`: `a` strictly precedes `b`. -/
def preferredOver (a b : Job) : Bool :=
  decide (b.priority < a.priority) ||
    (a.priority == b.priority && decide (a.scheduled_at < b.scheduled_at))

/-- The `SELECT ... ORDER BY priority DESC, scheduled_at ASC LIMIT 1` subquery
of `get_next_job` (ties beyond the two sort keys are unspecified in SQL; the
embedding keeps the later row of the list). -/
def select_best (now : Int) : List Job → Option Job
  | [] => none
  | j :: js =>
    match select_best now js with
    | none => if eligibleJob now j then some j else none
    | some b => if eligibleJob now j && preferredOver j b then some j else some b

/-- The `SET` clause of `get_next_job`: `status = 'processing', started_at = now()`. -/
def claim_row (now : Int) (j : Job) : Job :=
  { j with status := .processing, started_at := some now }

/-- `get_next_job`: claim the best eligible pending row, returning it and the
updated table; `(none, st)` when no row qualifies. -/
def get_next_job (now : Int) (st : List Job) : Option Job × List Job :=
  match select_best now st with
  | none => (none, st)
  | some b =>
    (some (claim_row now b), st.map fun j => if j.id == b.id then claim_row now j else j)

/-- The row-level effect of `complete_job`.  Every `CASE`/right-hand side reads
the OLD row, per SQL UPDATE semantics: the failure branch tests the
pre-increment `retry_count` against `max_retries` and backs off by
`2 ^ (pre-increment retry_count)` minutes. -/
def complete_job_row (now : Int) (success : Bool) (err : Option String) (j : Job) : Job :=
  if success then
    { j with status := .completed, completed_at := some now }
  else
    { j with
      status := if j.retry_count ≥ j.max_retries then .failed else .pending,
      retry_count := j.retry_count + 1,
      error_message := err,
      scheduled_at :=
        if j.retry_count < j.max_retries then now + 2 ^ j.retry_count
        else j.scheduled_at,
      started_at := none }

/-- `complete_job`: UPDATE the row with the given id (no status guard exists in
the source; a missing id is a silent no-op). -/
def complete_job (now : Int) (i : Nat) (success : Bool) (err : Option String)
    (st : List Job) : List Job :=
  st.map fun j => if j.id == i then complete_job_row now success err j else j

def minutesPerDay : Int := 1440

/-- The DELETE condition of `cleanup_old_jobs`: terminal status and
`completed_at < now() - days`.  A NULL `completed_at` makes the SQL comparison
NULL, hence the row is not deleted. -/
def purgeRow (now days : Int) (j : Job) : Bool :=
  (j.status == .completed || j.status == .failed) &&
    (match j.completed_at with
     | some t => decide (t < now - days * minutesPerDay)
     | none => false)

/-- `cleanup_old_jobs`: delete every row matching `purgeRow`. -/
def cleanup_old_jobs (now days : Int) (st : List Job) : List Job :=
  st.filter fun j => !purgeRow now days j

structure UsageKey where
  date : Int
  provider : String
  service : String
deriving DecidableEq

structure UsageRecord where
  key : UsageKey
  usage_count : Int
  tokens_used : Int
  estimated_cost_cents : Int
deriving DecidableEq

/-- The `DO UPDATE` arm of the upsert: add the deltas to the accumulators. -/
def addUsage (r : UsageRecord) (uc tu cc : Int) : UsageRecord :=
  { r with usage_count := r.usage_count + uc, tokens_used := r.tokens_used + tu,
           estimated_cost_cents := r.estimated_cost_cents + cc }

/-- `increment_usage_metric`: `INSERT ... ON CONFLICT (date, provider, service)
DO UPDATE SET <accumulator> = <accumulator> + delta`.  The unique index
guarantees at most one row per key, so updating the first match is the SQL
behaviour. -/
def increment_usage_metric (k : UsageKey) (uc tu cc : Int) :
    List UsageRecord → List UsageRecord
  | [] => [{ key := k, usage_count := uc, tokens_used := tu, estimated_cost_cents := cc }]
  | r :: rs =>
    if r.key == k then addUsage r uc tu cc :: rs
    else r :: increment_usage_metric k uc tu cc rs

/-- `SELECT` the unique row for a key, if present. -/
def findRecord (k : UsageKey) : List UsageRecord → Option UsageRecord
  | [] => none
  | r :: rs => if r.key == k then some r else findRecord k rs

def usageOf (k : UsageKey) (st : List UsageRecord) : Int :=
  match findRecord k st with
  | some r => r.usage_count
  | none => 0

def tokensOf (k : UsageKey) (st : List UsageRecord) : Int :=
  match findRecord k st with
  | some r => r.tokens_used
  | none => 0

def costOf (k : UsageKey) (st : List UsageRecord) : Int :=
  match findRecord k st with
  | some r => r.estimated_cost_cents
  | none => 0

/-- A batch of `increment_usage_metric` calls: key and the three deltas. -/
structure UsageCall where
  key : UsageKey
  uc : Int
  tu : Int
  cc : Int

def applyCalls (st : List UsageRecord) : List UsageCall → List UsageRecord
  | [] => st
  | c :: cs => applyCalls (increment_usage_metric c.key c.uc c.tu c.cc st) cs

def sumUc (k : UsageKey) (cs : List UsageCall) : Int :=
  (cs.filter fun c => c.key == k).foldr (fun c acc => c.uc + acc) 0

def sumTu (k : UsageKey) (cs : List UsageCall) : Int :=
  (cs.filter fun c => c.key == k).foldr (fun c acc => c.tu + acc) 0

def sumCc (k : UsageKey) (cs : List UsageCall) : Int :=
  (cs.filter fun c => c.key == k).foldr (fun c acc => c.cc + acc) 0

/-- One externally-invokable queue operation, tagged with the clock value at
which it runs. -/
inductive QOp
  | enq (newId : Nat) (jt pl : String) (prio sched : Int)
  | claim (now : Int)
  | complete (i : Nat) (success : Bool) (err : Option String) (now : Int)
  | purge (days now : Int)

def applyOp (st : List Job) : QOp → List Job
  | .enq i jt pl p s => enqueue_job st i jt pl p s
  | .claim n => (get_next_job n st).2
  | .complete i s e n => complete_job n i s e st
  | .purge d n => cleanup_old_jobs n d st

/-- The table reached from the empty table by a sequence of operations. -/
def runOps (ops : List QOp) : List Job :=
  ops.foldl applyOp []

/-- Repeatedly call `get_next_job` at the given clock values, collecting the
jobs handed out. -/
def runClaims : List Int → List Job → List Job × List Job
  | [], st => ([], st)
  | n :: ns, st =>
    match get_next_job n st with
    | (none, st2) => runClaims ns st2
    | (some j, st2) =>
      let p := runClaims ns st2
      (j :: p.1, p.2)

/-- The row `enqueue_job` inserts for id 1, type t, priority 5, schedule 0. -/
def exFresh : Job :=
  { id := 1, job_type := "t", payload := "", status := .pending, priority := 5,
    scheduled_at := 0, started_at := none, completed_at := none,
    error_message := none, retry_count := 0, max_retries := 3 }

/-- A job row as inserted directly with `max_retries = 1` (the scenario of the
spec's end-to-end test; `enqueue_job` itself always uses the default 3). -/
def exJob1 : Job :=
  { id := 1, job_type := "t", payload := "", status := .pending, priority := 5,
    scheduled_at := 0, started_at := none, completed_at := none,
    error_message := none, retry_count := 0, max_retries := 1 }

/-- `exJob1` after its first claim-and-fail cycle. -/
def exRun1 : Job := complete_job_row 100 false none (claim_row 50 exJob1)

/-- `exRun1` after its second claim-and-fail cycle (the retry cycle). -/
def exRun2 : Job := complete_job_row 200 false none (claim_row 101 exRun1)

/-- A freshly-claimed job row with the default `max_retries = 3`. -/
def exJob2 : Job :=
  { id := 2, job_type := "t", payload := "", status := .processing, priority := 5,
    scheduled_at := 0, started_at := some 0, completed_at := none,
    error_message := none, retry_count := 0, max_retries := 3 }

/-- A job row already in the terminal status `completed`. -/
def exCompleted : Job :=
  { id := 3, job_type := "t", payload := "", status := .completed, priority := 5,
    scheduled_at := 0, started_at := none, completed_at := some 10,
    error_message := none, retry_count := 0, max_retries := 3 }

/-- An operation sequence exercising `complete_job` against a terminal row. -/
def c8trace : List QOp :=
  [ .enq 1 "t" "" 5 0, .claim 0, .complete 1 true none 0,
    .complete 1 false none 0, .claim 1 ]

def exKey : UsageKey := { date := 20250101, provider := "p", service := "s" }

def exRec : UsageRecord :=
  { key := exKey, usage_count := 5, tokens_used := 5, estimated_cost_cents := 5 }

def exCalls : List UsageCall :=
  [ { key := exKey, uc := 1, tu := 2, cc := 3 },
    { key := exKey, uc := 2, tu := 0, cc := 0 } ]

/-- The state invariant maintained by the guarded operations: primary-key ids
are distinct, non-terminal rows have no completion timestamp, and processing
rows carry a start timestamp. -/
def JobInv (st : List Job) : Prop :=
  (st.map Job.id).Nodup ∧
    ∀ j ∈ st,
      ((j.status = JobStatus.pending ∨ j.status = JobStatus.processing) →
        j.completed_at = none) ∧
      (j.status = JobStatus.processing → j.started_at ≠ none)

/-- States reachable from the empty table when `complete_job` is only ever
invoked on rows currently in status `processing` (the worker-loop protocol) and
enqueued ids are fresh (the primary key). -/
inductive ReachableGuarded : List Job → Prop
  | empty : ReachableGuarded []
  | enq (st : List Job) (i : Nat) (jt pl : String) (p s : Int) :
      ReachableGuarded st → (∀ j ∈ st, j.id ≠ i) →
      ReachableGuarded (enqueue_job st i jt pl p s)
  | claim (st : List Job) (n : Int) :
      ReachableGuarded st → ReachableGuarded ((get_next_job n st).2)
  | complete (st : List Job) (n : Int) (i : Nat) (s : Bool) (e : Option String) :
      ReachableGuarded st → (∀ j ∈ st, j.id = i → j.status = .processing) →
      ReachableGuarded (complete_job n i s e st)
  | purge (st : List Job) (n d : Int) :
      ReachableGuarded st → ReachableGuarded (cleanup_old_jobs n d st)

theorem eligibleJob_iff (now : Int) (j : Job) :
    eligibleJob now j = true ↔ j.status = JobStatus.pending ∧ j.scheduled_at ≤ now := by
  simp [eligibleJob]

theorem preferredOver_iff (a b : Job) :
    preferredOver a b = true ↔
      b.priority < a.priority ∨
        (a.priority = b.priority ∧ a.scheduled_at < b.scheduled_at) := by
  simp [preferredOver]

theorem select_best_mem (now : Int) (st : List Job) (b : Job)
    (h : select_best now st = some b) : b ∈ st ∧ eligibleJob now b = true := by
  induction st with
  | nil => simp [select_best] at h
  | cons a js ih =>
    rw [select_best] at h
    cases hr : select_best now js with
    | none =>
      rw [hr] at h
      simp only [] at h
      by_cases ha : eligibleJob now a = true
      · rw [if_pos ha] at h
        injection h with h; subst h
        exact ⟨List.mem_cons_self a js, ha⟩
      · rw [if_neg ha] at h
        exact absurd h (by simp)
    | some c =>
      rw [hr] at h
      simp only [] at h
      by_cases hcond : (eligibleJob now a && preferredOver a c) = true
      · rw [if_pos hcond] at h
        injection h with h; subst h
        have hc2 := hcond
        simp only [Bool.and_eq_true] at hc2
        exact ⟨List.mem_cons_self a js, hc2.1⟩
      · rw [if_neg hcond] at h
        injection h with h; subst h
        obtain ⟨hm, he⟩ := ih hr
        exact ⟨List.mem_cons_of_mem a hm, he⟩

theorem select_best_none_iff (now : Int) (st : List Job) :
    select_best now st = none ↔ ∀ j ∈ st, eligibleJob now j = false := by
  induction st with
  | nil => simp [select_best]
  | cons a js ih =>
    rw [select_best]
    cases hr : select_best now js with
    | none =>
      constructor
      · intro h j hj
        rcases List.mem_cons.mp hj with rfl | hj2
        · by_cases ha : eligibleJob now j = true
          · rw [if_pos ha] at h; exact absurd h (by simp)
          · simpa using ha
        · exact (ih.mp hr) j hj2
      · intro h
        rw [if_neg]
        simp [h a (List.mem_cons_self a js)]
    | some c =>
      constructor
      · intro h
        simp only [] at h
        by_cases hcond : (eligibleJob now a && preferredOver a c) = true
        · rw [if_pos hcond] at h; exact absurd h (by simp)
        · rw [if_neg hcond] at h; exact absurd h (by simp)
      · intro h
        exfalso
        obtain ⟨hm, he⟩ := select_best_mem now js c hr
        rw [h c (List.mem_cons_of_mem a hm)] at he
        exact absurd he (by simp)

theorem select_best_opt (now : Int) (st : List Job) :
    ∀ b : Job, select_best now st = some b →
      ∀ j ∈ st, eligibleJob now j = true →
        j.priority ≤ b.priority ∧
          (j.priority = b.priority → b.scheduled_at ≤ j.scheduled_at) := by
  induction st with
  | nil => intro b h; simp [select_best] at h
  | cons a js ih =>
    intro b h
    rw [select_best] at h
    cases hr : select_best now js with
    | none =>
      rw [hr] at h
      simp only [] at h
      by_cases ha : eligibleJob now a = true
      · rw [if_pos ha] at h
        injection h with h; subst h
        intro j hj hje
        rcases List.mem_cons.mp hj with rfl | hj2
        · exact ⟨le_refl _, fun _ => le_refl _⟩
        · rw [(select_best_none_iff now js).mp hr j hj2] at hje
          exact absurd hje (by simp)
      · rw [if_neg ha] at h
        exact absurd h (by simp)
    | some c =>
      rw [hr] at h
      simp only [] at h
      by_cases hcond : (eligibleJob now a && preferredOver a c) = true
      · rw [if_pos hcond] at h
        injection h with h; subst h
        have hc2 := hcond
        simp only [Bool.and_eq_true] at hc2
        obtain ⟨hae, hpref⟩ := hc2
        rw [preferredOver_iff] at hpref
        intro j hj hje
        rcases List.mem_cons.mp hj with rfl | hj2
        · exact ⟨le_refl _, fun _ => le_refl _⟩
        · obtain ⟨h1, h2⟩ := ih c hr j hj2 hje
          rcases hpref with hlt | ⟨heq, hsched⟩
          · exact ⟨by omega, fun hja => by omega⟩
          · refine ⟨by omega, fun hja => ?_⟩
            have := h2 (by omega)
            omega
      · rw [if_neg hcond] at h
        injection h with h; subst h
        intro j hj hje
        rcases List.mem_cons.mp hj with rfl | hj2
        · have hnp : ¬(preferredOver j c = true) := by
            intro hp
            exact hcond (by rw [hje, hp]; rfl)
          rw [preferredOver_iff] at hnp
          push_neg at hnp
          obtain ⟨hnl, hns⟩ := hnp
          refine ⟨by omega, fun heq => ?_⟩
          have := hns heq
          omega
        · exact ih c hr j hj2 hje

/-- C4: `get_next_job` claims exactly the highest-priority, earliest-scheduled
eligible pending row — it marks it `processing` with `started_at = now`,
rewrites only that row in the table, and returns none exactly when no pending
row with `scheduled_at <= now` exists. -/
theorem C4_claim_next (now : Int) (st : List Job) :
    (∀ r st2, get_next_job now st = (some r, st2) →
      r.status = JobStatus.processing ∧ r.started_at = some now ∧
      ∃ b, b ∈ st ∧ b.status = JobStatus.pending ∧ b.scheduled_at ≤ now ∧
        r = claim_row now b ∧
        (∀ j ∈ st, j.status = JobStatus.pending → j.scheduled_at ≤ now →
          j.priority ≤ b.priority ∧
            (j.priority = b.priority → b.scheduled_at ≤ j.scheduled_at)) ∧
        st2 = st.map fun x => if x.id == b.id then claim_row now x else x) ∧
    ((get_next_job now st).1 = none ↔
      ∀ j ∈ st, ¬(j.status = JobStatus.pending ∧ j.scheduled_at ≤ now)) := by
  constructor
  · intro r st2 h
    unfold get_next_job at h
    cases hr : select_best now st with
    | none => rw [hr] at h; exact absurd h (by simp)
    | some b =>
      rw [hr] at h
      simp only [] at h
      injection h with h1 h2
      injection h1 with h1
      subst h1
      obtain ⟨hm, he⟩ := select_best_mem now st b hr
      obtain ⟨hp, hs⟩ := (eligibleJob_iff now b).mp he
      refine ⟨rfl, rfl, b, hm, hp, hs, rfl, ?_, h2.symm⟩
      intro j hj hjp hjs
      exact select_best_opt now st b hr j hj ((eligibleJob_iff now j).mpr ⟨hjp, hjs⟩)
  · cases hr : select_best now st with
    | none =>
      have hnone : (get_next_job now st).1 = none := by
        unfold get_next_job; rw [hr]
      rw [hnone]
      constructor
      · intro _ j hj hc
        have h2 := (eligibleJob_iff now j).mpr hc
        rw [(select_best_none_iff now st).mp hr j hj] at h2
        exact absurd h2 (by simp)
      · intro _; rfl
    | some b =>
      have hsome : (get_next_job now st).1 = some (claim_row now b) := by
        unfold get_next_job; rw [hr]
      rw [hsome]
      constructor
      · intro h; exact absurd h (by simp)
      · intro h
        exfalso
        obtain ⟨hm, he⟩ := select_best_mem now st b hr
        exact h b hm ((eligibleJob_iff now b).mp he)

/-- C4 witness: a single eligible pending row is claimed at time 5, marked
processing with started_at = 5. -/
theorem C4_claim_next_witness :
    (claim_row 5 exJob1).status = JobStatus.processing ∧
      (claim_row 5 exJob1).started_at = some 5 := by
  have h := (C4_claim_next 5 [exJob1]).1 (claim_row 5 exJob1)
    ([exJob1].map fun x => if x.id == exJob1.id then claim_row 5 x else x) (by decide)
  exact ⟨h.1, h.2.1⟩

/-- C1 counterexample: a processing job with `retry_count = 0`,
`max_retries = 1` is completed with `success = false` at time 100.  The
incremented retry_count (1) is ≥ max_retries (1), so the claim requires status
`failed`, but the code re-queues it as `pending` (the status CASE reads the
pre-increment retry_count) and the job is claimed again at time 101. -/
theorem C1_counterexample :
    exRun1.retry_count = 1 ∧ 1 ≥ exJob1.max_retries ∧
    exRun1.status = JobStatus.pending ∧ exRun1.status ≠ JobStatus.failed ∧
    (get_next_job 101 [exRun1]).1 = some (claim_row 101 exRun1) := by decide

/-- C1 (amended): complete(id, success=false) increments retry_count by one and
transitions the job to `pending` when the PRE-increment retry_count is below
max_retries (equivalently, when the incremented retry_count is ≤ max_retries)
and to `failed` when the pre-increment retry_count is ≥ max_retries; a job with
max_retries = 1 whose handler always fails is `failed` with retry_count = 2
after its second failing attempt, and a failed job is never claimable because
`get_next_job` only ever claims pending rows. -/
theorem C1_retry_transition (j : Job) (now : Int) (err : Option String)
    (hp : j.status = JobStatus.processing) :
    (complete_job_row now false err j).retry_count = j.retry_count + 1 ∧
    ((complete_job_row now false err j).status =
      if j.retry_count ≥ j.max_retries then JobStatus.failed else JobStatus.pending) ∧
    (exRun2.status = JobStatus.failed ∧ exRun2.retry_count = 2) ∧
    (∀ (now2 : Int) (st : List Job) (r : Job) (st2 : List Job),
      get_next_job now2 st = (some r, st2) →
      ∃ b, b ∈ st ∧ b.status = JobStatus.pending ∧ r = claim_row now2 b) := by
  refine ⟨by simp [complete_job_row], by simp [complete_job_row], by decide, ?_⟩
  intro now2 st r st2 h
  unfold get_next_job at h
  cases hr : select_best now2 st with
  | none => rw [hr] at h; exact absurd h (by simp)
  | some b =>
    rw [hr] at h
    simp only [] at h
    injection h with h1 h2
    injection h1 with h1
    obtain ⟨hm, he⟩ := select_best_mem now2 st b hr
    exact ⟨b, hm, ((eligibleJob_iff now2 b).mp he).1, h1.symm⟩

/-- C1 witness: the amended transition rule evaluated on a concrete
freshly-claimed job. -/
theorem C1_witness :
    (complete_job_row 100 false none exJob2).retry_count = exJob2.retry_count + 1 :=
  (C1_retry_transition exJob2 100 none (by decide)).1

/-- C2 counterexample: first failure of a job with `retry_count = 0` at time
100 schedules the retry at `100 + 2^0 = 101` (1 minute later), not at
`100 + 2^1` as the claim (backoff exponent = post-increment retry_count)
requires. -/
theorem C2_counterexample :
    (complete_job_row 100 false none exJob2).retry_count = 1 ∧
    (complete_job_row 100 false none exJob2).scheduled_at = 100 + 2 ^ 0 ∧
    (complete_job_row 100 false none exJob2).scheduled_at ≠ 100 + 2 ^ 1 := by decide

/-- C2 (amended): a failing retry is scheduled at `now + 2^n minutes` where n
is the PRE-increment retry_count (equivalently, the incremented retry_count
minus one): the first failure backs off 1 minute, the second 2 minutes, and so
on; and whenever a retried job fails again at a time no earlier than its
scheduled retry (a claim requires `scheduled_at ≤ now`), its new scheduled_at
is strictly later than the previous one. -/
theorem C2_backoff (j : Job) (now : Int) (err : Option String)
    (hretry : j.retry_count < j.max_retries) :
    (complete_job_row now false err j).scheduled_at = now + 2 ^ j.retry_count ∧
    (complete_job_row now false err j).retry_count = j.retry_count + 1 ∧
    (∀ (j2 : Job) (now2 : Int) (err2 : Option String),
      j2.scheduled_at ≤ now2 → j2.retry_count < j2.max_retries →
      j2.scheduled_at < (complete_job_row now2 false err2 j2).scheduled_at) := by
  refine ⟨by simp [complete_job_row, hretry], by simp [complete_job_row], ?_⟩
  intro j2 now2 err2 hle hlt
  have hsched : (complete_job_row now2 false err2 j2).scheduled_at =
      now2 + 2 ^ j2.retry_count := by
    simp [complete_job_row, hlt]
  rw [hsched]
  have hpow : (0 : Int) < 2 ^ j2.retry_count := pow_pos (by norm_num) _
  linarith

/-- C2 witness: the amended backoff rule evaluated on a concrete job. -/
theorem C2_witness :
    (complete_job_row 100 false none exJob2).scheduled_at = 100 + 2 ^ 0 :=
  (C2_backoff exJob2 100 none (by decide)).1

/-- C3 counterexample: `complete_job` on a job already in terminal status
`completed` silently mutates it — retry_count is incremented and the status
flips back to `pending` — rather than leaving it unchanged (and the source has
no error channel at all, so no `AlreadyTerminal` is ever signalled). -/
theorem C3_counterexample :
    complete_job 100 3 false none [exCompleted] ≠ [exCompleted] ∧
    (complete_job_row 100 false none exCompleted).retry_count =
      exCompleted.retry_count + 1 ∧
    (complete_job_row 100 false none exCompleted).status = JobStatus.pending := by
  decide

/-- C3 (amended): `complete_job` performs no terminal-state check and signals
no error: on an already-terminal job, success=true re-marks it `completed`
refreshing completed_at, and success=false increments retry_count and moves it
to `pending` (when the old retry_count is below max_retries) or `failed` —
a silent double-apply, not a no-op. -/
theorem C3_terminal_no_guard (j : Job) (now : Int) (err : Option String)
    (hterm : j.status = JobStatus.completed ∨ j.status = JobStatus.failed) :
    complete_job_row now true err j =
      { j with status := JobStatus.completed, completed_at := some now } ∧
    (complete_job_row now false err j).retry_count = j.retry_count + 1 ∧
    ((complete_job_row now false err j).status =
      if j.retry_count ≥ j.max_retries then JobStatus.failed else JobStatus.pending) := by
  exact ⟨by simp [complete_job_row], by simp [complete_job_row],
    by simp [complete_job_row]⟩

/-- C3 witness: the amended no-guard behaviour evaluated on a concrete
completed job. -/
theorem C3_witness :
    (complete_job_row 100 false none exCompleted).retry_count =
      exCompleted.retry_count + 1 :=
  (C3_terminal_no_guard exCompleted 100 none (Or.inl rfl)).2.1

theorem purgeRow_iff (now days : Int) (j : Job) :
    purgeRow now days j = true ↔
      (j.status = JobStatus.completed ∨ j.status = JobStatus.failed) ∧
        ∃ t, j.completed_at = some t ∧ t < now - days * minutesPerDay := by
  unfold purgeRow
  cases hc : j.completed_at with
  | none => simp
  | some t => simp

/-- C7: `cleanup_old_jobs` keeps exactly the rows that are not
(terminal-status with a completion timestamp older than the retention window);
in particular a `pending` or `processing` row is never deleted, whatever its
age. -/
theorem C7_purge_scope (now days : Int) (st : List Job) (j : Job) :
    (j ∈ cleanup_old_jobs now days st ↔
      j ∈ st ∧ ¬((j.status = JobStatus.completed ∨ j.status = JobStatus.failed) ∧
        ∃ t, j.completed_at = some t ∧ t < now - days * minutesPerDay)) ∧
    (j ∈ st → j.status = JobStatus.pending ∨ j.status = JobStatus.processing →
      j ∈ cleanup_old_jobs now days st) := by
  constructor
  · rw [cleanup_old_jobs, List.mem_filter]
    constructor
    · rintro ⟨hm, hp⟩
      refine ⟨hm, fun hcond => ?_⟩
      rw [← purgeRow_iff now days j] at hcond
      rw [hcond] at hp
      exact absurd hp (by simp)
    · rintro ⟨hm, hnc⟩
      refine ⟨hm, ?_⟩
      by_cases hp : purgeRow now days j = true
      · exact absurd ((purgeRow_iff now days j).mp hp) hnc
      · rw [Bool.not_eq_true] at hp
        rw [hp]
        rfl
  · intro hm hs
    rw [cleanup_old_jobs, List.mem_filter]
    refine ⟨hm, ?_⟩
    have hfalse : purgeRow now days j = false := by
      rcases hs with h | h <;> simp [purgeRow, h]
    rw [hfalse]
    rfl

/-- C7 witness: an arbitrarily old pending job survives a 7-day purge. -/
theorem C7_witness : exJob1 ∈ cleanup_old_jobs 99999999 7 [exJob1] :=
  (C7_purge_scope 99999999 7 [exJob1] exJob1).2 (by decide) (Or.inl rfl)

theorem usage_increment_same (k : UsageKey) (uc tu cc : Int) (st : List UsageRecord) :
    usageOf k (increment_usage_metric k uc tu cc st) = usageOf k st + uc ∧
    tokensOf k (increment_usage_metric k uc tu cc st) = tokensOf k st + tu ∧
    costOf k (increment_usage_metric k uc tu cc st) = costOf k st + cc := by
  induction st with
  | nil =>
    simp [increment_usage_metric, usageOf, tokensOf, costOf, findRecord]
  | cons r rs ih =>
    by_cases hk : (r.key == k) = true
    · simp [increment_usage_metric, hk, usageOf, tokensOf, costOf, findRecord, addUsage]
    · rw [Bool.not_eq_true] at hk
      simp only [increment_usage_metric, hk, Bool.false_eq_true, if_false]
      simp only [usageOf, tokensOf, costOf, findRecord, hk, Bool.false_eq_true, if_false]
      exact ih

theorem usage_increment_other (k k2 : UsageKey) (uc tu cc : Int) (st : List UsageRecord)
    (hne : k2 ≠ k) :
    usageOf k2 (increment_usage_metric k uc tu cc st) = usageOf k2 st ∧
    tokensOf k2 (increment_usage_metric k uc tu cc st) = tokensOf k2 st ∧
    costOf k2 (increment_usage_metric k uc tu cc st) = costOf k2 st := by
  have hkk : (k == k2) = false := by
    simp only [beq_eq_false_iff_ne, ne_eq]
    exact fun h => hne h.symm
  induction st with
  | nil =>
    simp [increment_usage_metric, usageOf, tokensOf, costOf, findRecord, hkk]
  | cons r rs ih =>
    by_cases hk : (r.key == k) = true
    · have hr2 : (r.key == k2) = false := by
        have : r.key = k := by simpa using hk
        rw [this]
        exact hkk
      simp [increment_usage_metric, hk, usageOf, tokensOf, costOf, findRecord,
        addUsage, hr2]
    · rw [Bool.not_eq_true] at hk
      by_cases hk2 : (r.key == k2) = true
      · simp [increment_usage_metric, hk, usageOf, tokensOf, costOf, findRecord, hk2]
      · rw [Bool.not_eq_true] at hk2
        simp only [increment_usage_metric, hk, Bool.false_eq_true, if_false]
        simp only [usageOf, tokensOf, costOf, findRecord, hk2, Bool.false_eq_true, if_false]
        exact ih

theorem findRecord_increment_none (k : UsageKey) (uc tu cc : Int)
    (st : List UsageRecord) (h : findRecord k st = none) :
    findRecord k (increment_usage_metric k uc tu cc st) =
      some { key := k, usage_count := uc, tokens_used := tu, estimated_cost_cents := cc } := by
  induction st with
  | nil => simp [increment_usage_metric, findRecord]
  | cons r rs ih =>
    rw [findRecord] at h
    by_cases hk : (r.key == k) = true
    · rw [if_pos hk] at h; exact absurd h (by simp)
    · rw [Bool.not_eq_true] at hk
      rw [if_neg (by simp [hk])] at h
      simp only [increment_usage_metric, hk, Bool.false_eq_true, if_false]
      rw [findRecord, if_neg (by simp [hk])]
      exact ih h

theorem findRecord_increment_some (k : UsageKey) (uc tu cc : Int)
    (st : List UsageRecord) (r0 : UsageRecord) (h : findRecord k st = some r0) :
    findRecord k (increment_usage_metric k uc tu cc st) =
      some (addUsage r0 uc tu cc) := by
  induction st with
  | nil => simp [findRecord] at h
  | cons r rs ih =>
    rw [findRecord] at h
    by_cases hk : (r.key == k) = true
    · rw [if_pos hk] at h
      injection h with h; subst h
      simp only [increment_usage_metric, hk, if_true]
      rw [findRecord, if_pos (by simpa [addUsage] using hk)]
    · rw [Bool.not_eq_true] at hk
      rw [if_neg (by simp [hk])] at h
      simp only [increment_usage_metric, hk, Bool.false_eq_true, if_false]
      rw [findRecord, if_neg (by simp [hk])]
      exact ih h

theorem applyCalls_usage (cs : List UsageCall) :
    ∀ (st : List UsageRecord) (k : UsageKey),
      usageOf k (applyCalls st cs) = usageOf k st + sumUc k cs ∧
      tokensOf k (applyCalls st cs) = tokensOf k st + sumTu k cs ∧
      costOf k (applyCalls st cs) = costOf k st + sumCc k cs := by
  induction cs with
  | nil =>
    intro st k
    simp [applyCalls, sumUc, sumTu, sumCc]
  | cons c cs ih =>
    intro st k
    rw [applyCalls]
    obtain ⟨i1, i2, i3⟩ := ih (increment_usage_metric c.key c.uc c.tu c.cc st) k
    rw [i1, i2, i3]
    by_cases hk : c.key = k
    · subst hk
      obtain ⟨e1, e2, e3⟩ := usage_increment_same c.key c.uc c.tu c.cc st
      rw [e1, e2, e3]
      simp only [sumUc, sumTu, sumCc, List.filter_cons, beq_self_eq_true, if_true,
        List.foldr_cons]
      constructor
      · omega
      constructor
      · omega
      · omega
    · obtain ⟨e1, e2, e3⟩ :=
        usage_increment_other c.key k c.uc c.tu c.cc st (fun h => hk h.symm)
      rw [e1, e2, e3]
      have hcf : (c.key == k) = false := by simp [hk]
      simp [sumUc, sumTu, sumCc, List.filter_cons, hcf]

/-- C5: `increment_usage_metric` is an upsert-with-accumulate — a missing row
is created with exactly the given deltas, an existing row has the deltas added
to its accumulators — and therefore, after any sequence of calls starting from
the empty table, each stored accumulator equals exactly the sum of the deltas
issued for its key. -/
theorem C5_accumulate (calls : List UsageCall) (k : UsageKey) :
    usageOf k (applyCalls [] calls) = sumUc k calls ∧
    tokensOf k (applyCalls [] calls) = sumTu k calls ∧
    costOf k (applyCalls [] calls) = sumCc k calls ∧
    (∀ (st : List UsageRecord) (uc tu cc : Int), findRecord k st = none →
      findRecord k (increment_usage_metric k uc tu cc st) =
        some { key := k, usage_count := uc, tokens_used := tu,
               estimated_cost_cents := cc }) ∧
    (∀ (st : List UsageRecord) (uc tu cc : Int) (r : UsageRecord),
      findRecord k st = some r →
      findRecord k (increment_usage_metric k uc tu cc st) =
        some (addUsage r uc tu cc)) := by
  obtain ⟨e1, e2, e3⟩ := applyCalls_usage calls [] k
  refine ⟨?_, ?_, ?_, ?_, ?_⟩
  · rw [e1]; simp [usageOf, findRecord]
  · rw [e2]; simp [tokensOf, findRecord]
  · rw [e3]; simp [costOf, findRecord]
  · intro st uc tu cc h
    exact findRecord_increment_none k uc tu cc st h
  · intro st uc tu cc r h
    exact findRecord_increment_some k uc tu cc st r h

/-- C5 witness: two increments for the same key accumulate to their sum, and
the upsert cases evaluated on concrete tables. -/
theorem C5_witness :
    usageOf exKey (applyCalls [] exCalls) = 3 ∧
    findRecord exKey (increment_usage_metric exKey 1 2 3 []) =
      some { key := exKey, usage_count := 1, tokens_used := 2,
             estimated_cost_cents := 3 } ∧
    findRecord exKey (increment_usage_metric exKey 1 0 0 [exRec]) =
      some (addUsage exRec 1 0 0) := by
  refine ⟨?_, ?_, ?_⟩
  · rw [(C5_accumulate exCalls exKey).1]; decide
  · exact (C5_accumulate exCalls exKey).2.2.2.1 [] 1 2 3 rfl
  · exact (C5_accumulate exCalls exKey).2.2.2.2 [exRec] 1 0 0 exRec (by decide)

/-- C9 counterexample: the SQL `integer` deltas may be negative and the
function does not validate them — an increment with delta −1 strictly
decreases the stored accumulator. -/
theorem C9_counterexample :
    usageOf exKey (increment_usage_metric exKey (-1) 0 0 [exRec]) <
      usageOf exKey [exRec] := by decide

/-- C9 (amended): whenever the three deltas of an increment call are
non-negative — as they are in every intended metering call — each stored
accumulator for the incremented key is monotonically non-decreasing across the
call (and the deltas are signed SQL integers, so a negative delta can decrease
an accumulator). -/
theorem C9_monotone (k : UsageKey) (uc tu cc : Int) (st : List UsageRecord)
    (h1 : 0 ≤ uc) (h2 : 0 ≤ tu) (h3 : 0 ≤ cc) :
    usageOf k st ≤ usageOf k (increment_usage_metric k uc tu cc st) ∧
    tokensOf k st ≤ tokensOf k (increment_usage_metric k uc tu cc st) ∧
    costOf k st ≤ costOf k (increment_usage_metric k uc tu cc st) := by
  obtain ⟨e1, e2, e3⟩ := usage_increment_same k uc tu cc st
  rw [e1, e2, e3]
  exact ⟨by omega, by omega, by omega⟩

/-- C9 witness: a non-negative increment on a concrete table. -/
theorem C9_witness :
    usageOf exKey [exRec] ≤ usageOf exKey (increment_usage_metric exKey 2 0 0 [exRec]) :=
  (C9_monotone exKey 2 0 0 [exRec] (by norm_num) (by norm_num) (by norm_num)).1

/-- C10: the failure branch of `complete_job` never writes `completed_at` — so
a job whose completed_at is null stays null, in particular across the
transition to terminal `failed`, where `scheduled_at` is also left unchanged —
and `cleanup_old_jobs` never deletes a row whose completed_at is null (the SQL
NULL comparison), hence a job that reached `failed` through the failure branch
is never purged, for any retention. -/
theorem C10_failed_never_purged (j : Job) (now : Int) (err : Option String) :
    (complete_job_row now false err j).completed_at = j.completed_at ∧
    (j.retry_count ≥ j.max_retries →
      (complete_job_row now false err j).scheduled_at = j.scheduled_at ∧
      (complete_job_row now false err j).status = JobStatus.failed) ∧
    (j.completed_at = none →
      (complete_job_row now false err j).completed_at = none ∧
      ∀ (now2 days : Int) (st : List Job),
        complete_job_row now false err j ∈ st →
        complete_job_row now false err j ∈ cleanup_old_jobs now2 days st) := by
  refine ⟨by simp [complete_job_row], fun hge => ⟨?_, ?_⟩, fun hnone => ⟨?_, ?_⟩⟩
  · simp only [complete_job_row, if_false, Bool.false_eq_true]
    rw [if_neg (by omega)]
  · simp only [complete_job_row, if_false, Bool.false_eq_true]
    rw [if_pos hge]
  · simp [complete_job_row, hnone]
  · intro now2 days st hm
    rw [cleanup_old_jobs, List.mem_filter]
    refine ⟨hm, ?_⟩
    have hc : (complete_job_row now false err j).completed_at = none := by
      simp [complete_job_row, hnone]
    unfold purgeRow
    rw [hc]
    simp

/-- C10 witness: a job with null completed_at driven to `failed` keeps
completed_at null, keeps its scheduled_at, and survives any purge. -/
theorem C10_witness :
    (complete_job_row 200 false none (claim_row 101 exRun1)).completed_at = none ∧
    (complete_job_row 200 false none (claim_row 101 exRun1)).scheduled_at =
      (claim_row 101 exRun1).scheduled_at ∧
    (complete_job_row 200 false none (claim_row 101 exRun1)).status = JobStatus.failed ∧
    complete_job_row 200 false none (claim_row 101 exRun1) ∈
      cleanup_old_jobs 99999999 7 [complete_job_row 200 false none (claim_row 101 exRun1)] := by
  have h := C10_failed_never_purged (claim_row 101 exRun1) 200 none
  exact ⟨(h.2.2 (by decide)).1, (h.2.1 (by decide)).1, (h.2.1 (by decide)).2,
    (h.2.2 (by decide)).2 99999999 7 _ (by decide)⟩

theorem get_next_job_none_state (now : Int) (st st2 : List Job)
    (h : get_next_job now st = (none, st2)) : st2 = st := by
  unfold get_next_job at h
  cases hr : select_best now st with
  | none =>
    rw [hr] at h
    simp only [] at h
    injection h with h1 h2
    exact h2.symm
  | some b =>
    rw [hr] at h
    simp only [] at h
    injection h with h1 h2
    exact absurd h1 (by simp)

theorem get_next_job_some (now : Int) (st : List Job) (r : Job) (st2 : List Job)
    (h : get_next_job now st = (some r, st2)) :
    ∃ b, select_best now st = some b ∧ r = claim_row now b ∧
      st2 = st.map fun x => if x.id == b.id then claim_row now x else x := by
  unfold get_next_job at h
  cases hr : select_best now st with
  | none =>
    rw [hr] at h
    simp only [] at h
    injection h with h1 h2
    exact absurd h1 (by simp)
  | some b =>
    rw [hr] at h
    simp only [] at h
    injection h with h1 h2
    injection h1 with h1
    exact ⟨b, rfl, h1.symm, h2.symm⟩

theorem claimed_id_processing (now : Int) (st : List Job) (r : Job) (st2 : List Job)
    (h : get_next_job now st = (some r, st2)) :
    ∀ x ∈ st2, x.id = r.id → x.status = JobStatus.processing := by
  obtain ⟨b, hb, hr1, hst2⟩ := get_next_job_some now st r st2 h
  subst hst2
  intro x hx hid
  obtain ⟨y, hy, hxy⟩ := List.mem_map.mp hx
  by_cases hyb : (y.id == b.id) = true
  · rw [if_pos hyb] at hxy
    rw [← hxy]
    rfl
  · rw [if_neg hyb] at hxy
    exfalso
    apply hyb
    subst hxy
    rw [hr1] at hid
    simp only [claim_row] at hid
    simp [hid]

theorem pending_persist (now : Int) (st st2 : List Job) (o : Option Job)
    (h : get_next_job now st = (o, st2)) :
    ∀ x ∈ st2, x.status = JobStatus.pending → x ∈ st := by
  cases o with
  | none =>
    rw [get_next_job_none_state now st st2 h]
    exact fun x hx _ => hx
  | some r =>
    obtain ⟨b, hb, hr1, hst2⟩ := get_next_job_some now st r st2 h
    subst hst2
    intro x hx hp
    obtain ⟨y, hy, hxy⟩ := List.mem_map.mp hx
    by_cases hyb : (y.id == b.id) = true
    · rw [if_pos hyb] at hxy
      rw [← hxy] at hp
      exact absurd hp (by simp [claim_row])
    · rw [if_neg hyb] at hxy
      exact hxy ▸ hy

theorem countP_lt_of_mem_aux {α : Type} (p q : α → Bool) (l : List α) (b : α)
    (hb : b ∈ l) (hpb : p b = true) (hqb : q b = false)
    (himp : ∀ a ∈ l, q a = true → p a = true) :
    l.countP q < l.countP p := by
  induction l with
  | nil => simp at hb
  | cons a as ih =>
    rw [List.countP_cons, List.countP_cons]
    rcases List.mem_cons.mp hb with rfl | hmem
    · rw [hpb, hqb]
      have hle : as.countP q ≤ as.countP p :=
        List.countP_mono_left fun x hx hq => himp x (List.mem_cons_of_mem _ hx) hq
      simp only [if_true, if_false, Bool.false_eq_true]
      omega
    · have hstep := ih hmem fun x hx hq => himp x (List.mem_cons_of_mem _ hx) hq
      by_cases hqa : q a = true
      · rw [hqa, himp a (List.mem_cons_self a as) hqa]
        omega
      · rw [Bool.not_eq_true] at hqa
        rw [hqa]
        by_cases hpa : p a = true
        · rw [hpa]
          simp only [if_true, if_false, Bool.false_eq_true]
          omega
        · rw [Bool.not_eq_true] at hpa
          rw [hpa]
          simp only [if_false, Bool.false_eq_true]
          omega

theorem claim_countP_lt (now : Int) (st : List Job) (r : Job) (st2 : List Job)
    (h : get_next_job now st = (some r, st2)) :
    st2.countP (fun j => j.status == JobStatus.pending) <
      st.countP (fun j => j.status == JobStatus.pending) := by
  obtain ⟨b, hb, hr1, hst2⟩ := get_next_job_some now st r st2 h
  subst hst2
  obtain ⟨hm, he⟩ := select_best_mem now st b hb
  obtain ⟨hp, _⟩ := (eligibleJob_iff now b).mp he
  rw [List.countP_map]
  apply countP_lt_of_mem_aux _ _ st b hm
  · simp [hp]
  · simp [claim_row]
  · intro a ha hq
    by_cases hab : (a.id == b.id) = true
    · simp only [Function.comp, hab, if_true, claim_row] at hq
      exact absurd hq (by simp)
    · simp only [Function.comp, hab, Bool.false_eq_true, if_false] at hq
      exact hq

theorem runClaims_returned_pending (ts : List Int) :
    ∀ st : List Job, ∀ r ∈ (runClaims ts st).1,
      ∃ y ∈ st, y.status = JobStatus.pending ∧ y.id = r.id := by
  induction ts with
  | nil =>
    intro st r hr
    simp [runClaims] at hr
  | cons n ns ih =>
    intro st r hr
    rw [runClaims] at hr
    cases h : get_next_job n st with
    | mk o st2 =>
      rw [h] at hr
      cases o with
      | none =>
        simp only [] at hr
        have hst := get_next_job_none_state n st st2 h
        subst hst
        exact ih st2 r hr
      | some j =>
        simp only [] at hr
        rcases List.mem_cons.mp hr with rfl | hr2
        · obtain ⟨b, hb, hj, _⟩ := get_next_job_some n st r st2 h
          obtain ⟨hm, he⟩ := select_best_mem n st b hb
          obtain ⟨hp, _⟩ := (eligibleJob_iff n b).mp he
          refine ⟨b, hm, hp, ?_⟩
          rw [hj]
          rfl
        · obtain ⟨y, hy, hyp, hyid⟩ := ih st2 r hr2
          exact ⟨y, pending_persist n st st2 (some j) h y hy hyp, hyp, hyid⟩

/-- C6: for any sequence of `get_next_job` calls — each of which is a single
atomic row-claiming UPDATE in the source (`FOR UPDATE SKIP LOCKED` serialises
concurrent callers, so every interleaving is some sequence of atomic claims) —
the ids of the jobs handed out are pairwise distinct (no job goes to two
callers) and at most the number of initially pending jobs are handed out in
total. -/
theorem C6_exclusive_claims (ts : List Int) (st : List Job) :
    ((runClaims ts st).1.map Job.id).Nodup ∧
    (runClaims ts st).1.length ≤ st.countP (fun j => j.status == JobStatus.pending) := by
  induction ts generalizing st with
  | nil => simp [runClaims]
  | cons n ns ih =>
    cases h : get_next_job n st with
    | mk o st2 =>
      cases o with
      | none =>
        rw [runClaims, h]
        simp only []
        have hst := get_next_job_none_state n st st2 h
        subst hst
        exact ih st2
      | some j =>
        rw [runClaims, h]
        simp only []
        obtain ⟨ihn, ihl⟩ := ih st2
        constructor
        · simp only [List.map_cons, List.nodup_cons]
          refine ⟨?_, ihn⟩
          intro hmem
          obtain ⟨r, hr, hrid⟩ := List.mem_map.mp hmem
          obtain ⟨y, hy, hyp, hyid⟩ := runClaims_returned_pending ns st2 r hr
          have hproc : y.status = JobStatus.processing :=
            claimed_id_processing n st j st2 h y hy (by rw [hyid, hrid])
          rw [hyp] at hproc
          exact absurd hproc (by simp)
        · simp only [List.length_cons]
          have hlt := claim_countP_lt n st j st2 h
          omega

/-- C8 counterexample: the operation sequence enqueue, claim, complete(success),
complete(failure), claim — every step one of the four public operations — ends
with a `processing` job whose completed_at is set: `complete_job` has no
terminal-status guard, so the success-completed job (completed_at set) is
re-opened to `pending` by the failure call and then claimed again. -/
theorem C8_counterexample :
    ∃ j, j ∈ runOps c8trace ∧ j.status = JobStatus.processing ∧
      j.completed_at ≠ none := by decide

theorem reachable_inv (st : List Job) (h : ReachableGuarded st) : JobInv st := by
  induction h with
  | empty => exact ⟨List.nodup_nil, by simp⟩
  | enq st i jt pl p s hst hfresh ih =>
    obtain ⟨hn, hinv⟩ := ih
    constructor
    · rw [enqueue_job, List.map_append, List.nodup_append]
      refine ⟨hn, by simp, ?_⟩
      intro a ha hb
      simp only [List.map_cons, List.map_nil, List.mem_singleton] at hb
      subst hb
      obtain ⟨y, hy, hyid⟩ := List.mem_map.mp ha
      exact hfresh y hy hyid
    · intro j hj
      rw [enqueue_job] at hj
      rcases List.mem_append.mp hj with hj1 | hj2
      · exact hinv j hj1
      · rw [List.mem_singleton] at hj2
        subst hj2
        simp
  | claim st n hst ih =>
    obtain ⟨hn, hinv⟩ := ih
    cases hr : select_best n st with
    | none =>
      have heq : (get_next_job n st).2 = st := by
        unfold get_next_job; rw [hr]
      rw [heq]
      exact ⟨hn, hinv⟩
    | some b =>
      have heq : (get_next_job n st).2 =
          st.map fun x => if x.id == b.id then claim_row n x else x := by
        unfold get_next_job; rw [hr]
      rw [heq]
      obtain ⟨hbm, hbe⟩ := select_best_mem n st b hr
      obtain ⟨hbp, _⟩ := (eligibleJob_iff n b).mp hbe
      constructor
      · rw [List.map_map]
        have hcongr : st.map (Job.id ∘ fun x => if x.id == b.id then claim_row n x else x) =
            st.map Job.id := by
          apply List.map_congr_left
          intro x _
          by_cases hx : x.id = b.id
          · simp [hx, claim_row]
          · simp [hx]
        rw [hcongr]
        exact hn
      · intro j hj
        obtain ⟨y, hy, hxy⟩ := List.mem_map.mp hj
        by_cases hx : (y.id == b.id) = true
        · rw [if_pos hx] at hxy
          have hyb : y = b := by
            apply List.inj_on_of_nodup_map hn hy hbm
            simpa using hx
          subst hyb
          rw [← hxy]
          have hcn : y.completed_at = none := (hinv y hy).1 (Or.inl hbp)
          constructor
          · intro _
            simpa [claim_row] using hcn
          · intro _
            simp [claim_row]
        · rw [if_neg hx] at hxy
          rw [← hxy]
          exact hinv y hy
  | complete st n i s e hst hguard ih =>
    obtain ⟨hn, hinv⟩ := ih
    constructor
    · rw [complete_job, List.map_map]
      have hcongr : st.map (Job.id ∘ fun x => if x.id == i then complete_job_row n s e x else x) =
          st.map Job.id := by
        apply List.map_congr_left
        intro x _
        by_cases hx : x.id = i
        · cases s <;> simp [hx, complete_job_row]
        · simp [hx]
      rw [hcongr]
      exact hn
    · intro j hj
      rw [complete_job] at hj
      obtain ⟨y, hy, hxy⟩ := List.mem_map.mp hj
      by_cases hx : (y.id == i) = true
      · rw [if_pos hx] at hxy
        have hyproc : y.status = JobStatus.processing := hguard y hy (by simpa using hx)
        have hcn : y.completed_at = none := (hinv y hy).1 (Or.inr hyproc)
        rw [← hxy]
        cases s with
        | true =>
          constructor
          · intro hc
            rcases hc with hc | hc <;> simp [complete_job_row] at hc
          · intro hc
            simp [complete_job_row] at hc
        | false =>
          constructor
          · intro _
            simpa [complete_job_row] using hcn
          · intro hc
            exfalso
            by_cases hge : y.retry_count ≥ y.max_retries
            · simp [complete_job_row, if_pos hge] at hc
            · simp [complete_job_row, if_neg hge] at hc
      · rw [if_neg hx] at hxy
        rw [← hxy]
        exact hinv y hy
  | purge st n d hst ih =>
    obtain ⟨hn, hinv⟩ := ih
    constructor
    · exact hn.sublist (List.Sublist.map Job.id (List.filter_sublist st))
    · intro j hj
      rw [cleanup_old_jobs, List.mem_filter] at hj
      exact hinv j hj.1

/-- C8 (amended): in every state reachable from the empty queue by enqueue
(with a fresh primary-key id), claimNext, complete, and purgeOld in which
complete is only invoked on jobs currently in status `processing` (the
worker-loop protocol), every `processing` job has started_at set and
completed_at null.  Without that restriction the invariant fails: complete has
no terminal-status guard, so a success-completed job can be re-opened to
`pending` and re-claimed, producing a `processing` job with completed_at set. -/
theorem C8_processing_inv (st : List Job) (h : ReachableGuarded st) :
    ∀ j ∈ st, j.status = JobStatus.processing →
      j.started_at ≠ none ∧ j.completed_at = none := by
  intro j hj hp
  obtain ⟨_, hinv⟩ := reachable_inv st h
  obtain ⟨h1, h2⟩ := hinv j hj
  exact ⟨h2 hp, h1 (Or.inr hp)⟩

/-- C8 witness: the invariant evaluated on the concrete reachable state
enqueue-then-claim. -/
theorem C8_witness :
    (claim_row 0 exFresh).started_at ≠ none ∧
    (claim_row 0 exFresh).completed_at = none := by
  have hreach : ReachableGuarded ((get_next_job 0 (enqueue_job [] 1 "t" "" 5 0)).2) :=
    ReachableGuarded.claim (enqueue_job [] 1 "t" "" 5 0) 0
      (ReachableGuarded.enq [] 1 "t" "" 5 0 ReachableGuarded.empty (by simp))
  exact C8_processing_inv ((get_next_job 0 (enqueue_job [] 1 "t" "" 5 0)).2) hreach
    _ (by decide) (by decide)

end BMCore
